import Mathlib

/-!
Verification development for the chess-lense incremental sync and caching
engine.  The definitions below are shallow embeddings of the Python source:

* `src/models.py` — `GameRow.simplify_result`, `GameRow.from_game`
* `src/services/file_cache.py` — `IndexEntry`, `IndexModel`, `FileCache`
  path derivation, `FileCache.update_games`
* `src/services/chesscom_downloader.py` — `download_index`,
  `_fetch_conditional_json`, `download_archive`
* `src/services/data_manager.py` — the per-archive sync step of
  `check_for_updates_and_init`, `_build_exact_index`, `_match_exact_longest`

Machine integers and timestamps are modelled as `Int` (seconds since the
epoch); ISO-format timestamp strings in the source are ordered exactly as
their underlying instants, so the `Int` ordering is faithful.  Fallible
code is modelled with `Option`/`Except`.
-/

namespace ChessLense

/-- Python's `str.lower()`, modelled characterwise (kernel-reducible,
unlike `String.toLower`). -/
def lowerStr (s : String) : String := String.mk (s.data.map Char.toLower)

/-- Python's `str.strip()`: drop whitespace from both ends. -/
def stripStr (s : String) : String :=
  String.mk (((s.data.dropWhile Char.isWhitespace).reverse.dropWhile Char.isWhitespace).reverse)

/-! ### Result simplification (`src/models.py`, `GameRow.simplify_result`) -/

/-- The raw result codes bucketed as draws in `GameRow.simplify_result`. -/
def draw_codes : List String :=
  ["agreed", "stalemate", "repetition", "insufficient", "50move", "timevsinsufficient"]

/-- The raw result codes bucketed as losses in `GameRow.simplify_result`. -/
def loss_codes : List String :=
  ["checkmated", "resigned", "timeout", "abandoned", "lose"]

/-- `GameRow.simplify_result` from `src/models.py`: lowercases the raw code,
then buckets it into win/draw/loss, returning `none` for `None` input and
for any unrecognized code. -/
def simplify_result (result : Option String) : Option String :=
  match result with
  | none => none
  | some r =>
    let rl := lowerStr r
    if rl ∈ ["win"] then some "win"
    else if rl ∈ draw_codes then some "draw"
    else if rl ∈ loss_codes then some "loss"
    else none

/-! ### Index entries (`src/services/file_cache.py`) -/

/-- `IndexEntry` from `src/services/file_cache.py`: one archive URL's fetch
state.  `created_on` and `updated_on` are ISO timestamps in the source,
modelled as seconds (`updated_on` is `None` until the first successful
sync). -/
structure IndexEntry where
  url : String
  etag : Option String := none
  created_on : Int := 0
  updated_on : Option Int := none
deriving DecidableEq, Repr

/-- `IndexEntry.is_update_needed`: stale iff never synced or synced more
than 24 hours before `now`. -/
def IndexEntry.is_update_needed (e : IndexEntry) (now : Int) : Bool :=
  match e.updated_on with
  | none => true
  | some t => decide (t < now - 24 * 3600)

/-- `IndexModel` from `src/services/file_cache.py`. -/
structure IndexModel where
  archives_list : IndexEntry
  archives : List IndexEntry := []
deriving DecidableEq, Repr

/-! ### Per-user cache paths (`src/services/file_cache.py`, `FileCache.__init__`) -/

/-- `FileCache.__init__` stores `username.strip().lower()`. -/
def normalized_username (u : String) : String := lowerStr (stripStr u)

/-- `FileCache.user_folder`: `cache_root / normalized_username`. -/
def user_folder (base u : String) : String := base ++ "/" ++ normalized_username u

/-- `FileCache.index_path`. -/
def index_path (base u : String) : String := user_folder base u ++ "/index.json"

/-- `FileCache.raw_path`. -/
def raw_path (base u : String) : String := user_folder base u ++ "/raw.parquet"

/-- `FileCache.games_path`. -/
def games_path (base u : String) : String := user_folder base u ++ "/games.parquet"

/-! ### Raw API payloads and the record normalizer (`src/models.py`) -/

/-- `PlayerRef`: one side's sub-object in a raw game payload. -/
structure PlayerRef where
  username : Option String := none
  rating : Option Int := none
  result : Option String := none
deriving DecidableEq, Repr

/-- `GameModel`: one raw game payload. -/
structure GameModel where
  url : Option String := none
  pgn : Option String := none
  time_control : Option String := none
  time_class : Option String := none
  rules : Option String := none
  rated : Option Bool := some false
  end_time : Option Int := none
  initial_setup : Option String := none
  eco : Option String := none
  tournament : Option String := none
  white : PlayerRef := {}
  black : PlayerRef := {}
deriving DecidableEq, Repr

/-- `GameRow`: the normalized, analysis-ready row schema. -/
structure GameRow where
  end_time : Option Int := none
  username : Option String := none
  opponent_username : Option String := none
  user_played_as : Option String := none
  user_result : Option String := none
  user_result_simple : Option String := none
  opponent_result : Option String := none
  user_rating : Option Int := none
  opponent_rating : Option Int := none
  rated : Option Bool := none
  rules : Option String := none
  time_class : Option String := none
  time_control : Option String := none
  initial_setup_fen : Option String := none
  game_url : Option String := none
  pgn_url : Option String := none
  eco_url : Option String := none
  tournament_url : Option String := none
deriving DecidableEq, Repr

/-- The side-matching test in `GameRow.from_game`:
`g.side.username != None and g.side.username.strip().lower() == username`
(the payload's name is stripped and lowercased; the tracked username is
compared as given). -/
def side_matches (u : Option String) (username : String) : Bool :=
  match u with
  | none => false
  | some s => lowerStr (stripStr s) == username

/-- `datetime.fromtimestamp(g.end_time, tz=utc) if g.end_time else None`:
`0` is falsy in Python, so an epoch of `0` also yields `None`. -/
def convert_end_time (t : Option Int) : Option Int :=
  match t with
  | none => none
  | some v => if v = 0 then none else some v

/-- The `GameRow(...)` constructor call at the end of `from_game`, from
the perspective of the matched side `mine` playing `color`. -/
def row_of_side (g : GameModel) (mine opp : PlayerRef) (color : String) : GameRow :=
  { end_time := convert_end_time g.end_time
    username := mine.username
    opponent_username := opp.username
    user_played_as := some color
    user_result := mine.result
    user_result_simple := simplify_result mine.result
    opponent_result := opp.result
    user_rating := mine.rating
    opponent_rating := opp.rating
    rated := g.rated
    rules := g.rules
    time_class := g.time_class
    time_control := g.time_control
    initial_setup_fen := g.initial_setup
    game_url := g.url
    pgn_url := g.pgn
    eco_url := g.eco
    tournament_url := g.tournament }

/-- `GameRow.from_game` from `src/models.py`: the black side is tested
first, then the white side.  When neither matches, the Python code prints
"Something went wrong, skipping game." and then falls through to the
`GameRow(...)` call, whose arguments are unbound local variables — it
raises `UnboundLocalError`.  That exceptional exit is the `.error` case. -/
def from_game (g : GameModel) (username : String) : Except String GameRow :=
  if side_matches g.black.username username then
    .ok (row_of_side g g.black g.white "black")
  else if side_matches g.white.username username then
    .ok (row_of_side g g.white g.black "white")
  else
    .error "UnboundLocalError"

/-! ### Remote archive client (`src/services/chesscom_downloader.py`) -/

/-- Outcome of the HTTP GET on the archive-list endpoint. -/
inductive ListResponse where
  | ok (urls : List String) (etagHeader : Option String)
  | notModified
  | notFound
  | otherStatus
  | netError
deriving DecidableEq, Repr

/-- The archive-list endpoint URL built in `download_index`. -/
def archives_url (username : String) : String :=
  "https://api.chess.com/pub/player/" ++ username ++ "/games/archives"

/-- The dict comprehension `prev = {a.url: a for a in idx.archives}`
followed by `prev.get(u, IndexEntry(url=u))`: for duplicate URLs the
later entry wins. -/
def url_dict (l : List IndexEntry) (u : String) : Option IndexEntry :=
  l.reverse.find? (fun a => a.url == u)

/-- `ChesscomDownloader.download_index`.  The function constructs a
brand-new `IndexModel` before building `prev`, so `prev` is computed from
an empty archive list — the cached index on disk is never passed in.  On
a `requests.RequestException` the source logs and then `raise e`s, which
is the `.error` case. -/
def download_index (username : String) (resp : ListResponse) (now : Int) :
    Except Unit IndexModel :=
  let idx : IndexModel := { archives_list := { url := archives_url username } }
  match resp with
  | .netError => .error ()
  | .ok urls etagHeader =>
    let prev := idx.archives
    .ok { archives_list :=
            { idx.archives_list with etag := etagHeader, updated_on := some now }
          archives := urls.map (fun u => (url_dict prev u).getD { url := u }) }
  | .notModified =>
    .ok { idx with archives_list := { idx.archives_list with updated_on := some now } }
  | .notFound => .ok idx
  | .otherStatus => .ok idx

/-- Lines 40–47 of `DataManager.check_for_updates_and_init`: load the
cached index; when it is missing or its archive-list entry is stale, the
whole index is replaced by `download_index`'s result. -/
def reload_index (cached : Option IndexModel) (username : String)
    (resp : ListResponse) (now : Int) : Except Unit IndexModel :=
  match cached with
  | none => download_index username resp now
  | some idx =>
    if idx.archives_list.is_update_needed now then download_index username resp now
    else .ok idx

/-- Outcome of the HTTP GET on one monthly-archive endpoint. -/
inductive ArchiveResponse where
  | ok (games : List GameModel) (etagHeader : Option String)
  | okBadJson (etagHeader : Option String)
  | notModified
  | rateLimited
  | notFound
  | otherStatus
  | netError
deriving DecidableEq, Repr

/-- `ChesscomDownloader._fetch_conditional_json`: returns the possibly
mutated entry together with the parsed payload.  The payload is `none` on
304, 429, 404, any other non-200 status, network errors and JSON parse
failures; on any 200 the entry's etag and `created_on` are overwritten
before the parse is attempted. -/
def fetch_conditional_json (e : IndexEntry) (resp : ArchiveResponse) (now : Int) :
    IndexEntry × Option (List GameModel) :=
  match resp with
  | .netError => (e, none)
  | .notModified => (e, none)
  | .ok games etagHeader => ({ e with etag := etagHeader, created_on := now }, some games)
  | .okBadJson etagHeader => ({ e with etag := etagHeader, created_on := now }, none)
  | .rateLimited => (e, none)
  | .notFound => (e, none)
  | .otherStatus => (e, none)

/-- One iteration of the archive loop in
`DataManager.check_for_updates_and_init` (lines 52–68): a fresh entry is
skipped; a stale one is fetched (`download_archive` forwards the payload
of `_fetch_conditional_json`), and only when a payload came back are the
rows accumulated and `updated_on := now` stamped — a `None` payload hits
the `continue` and leaves the timestamp alone. -/
def sync_archive_step (e : IndexEntry) (resp : ArchiveResponse)
    (username : String) (now : Int) : IndexEntry × List (Except String GameRow) :=
  if e.is_update_needed now then
    let fetched := fetch_conditional_json e resp now
    match fetched.2 with
    | none => (fetched.1, [])
    | some games =>
        ({ fetched.1 with updated_on := some now },
         games.map (fun g => from_game g username))
  else (e, [])

/-! ### The month-replacement merge (`src/services/file_cache.py`, `FileCache.update_games`) -/

/-- The (year, month) of a UTC instant given as epoch seconds —
`end_time.dt.to_period("M")` on a timezone-aware timestamp.  Uses the
standard days-to-civil-date conversion; `Int.fdiv` floors, so negative
epochs are handled like Python's calendar. -/
def civil_month (epoch : Int) : Int × Int :=
  let days := Int.fdiv epoch 86400
  let z := days + 719468
  let era := Int.fdiv z 146097
  let doe := z - era * 146097
  let yoe := Int.fdiv (doe - Int.fdiv doe 1460 + Int.fdiv doe 36524 - Int.fdiv doe 146096) 365
  let doy := doe - (365 * yoe + Int.fdiv yoe 4 - Int.fdiv yoe 100)
  let mp := Int.fdiv (5 * doy + 2) 153
  let m := mp + (if mp < 10 then 3 else -9)
  let y := yoe + era * 400 + (if m ≤ 2 then 1 else 0)
  (y, m)

/-- `to_period("M")` on a nullable timestamp column: NaT stays NaT. -/
def to_period_m (t : Option Int) : Option (Int × Int) := t.map civil_month

/-- The per-row dedup key the code computes:
`merged["game_url"].combine_first(merged["pgn_url"])` — the game URL when
present, else the PGN URL.  Rows missing both get pandas NaN, modelled as
`none`; pandas `drop_duplicates` treats NaN keys as equal, as does
`none`. -/
def merge_key (r : GameRow) : Option String :=
  match r.game_url with
  | some u => some u
  | none => r.pgn_url

/-- A merged row tagged with its positional index and the `__is_new`
flag (`merged.index >= len(existing[keep_mask])`). -/
abbrev TaggedRow := GameRow × Nat × Bool

/-- Tag a block of rows with consecutive positions starting at `i`. -/
def tag_from (i : Nat) (isNew : Bool) : List GameRow → List TaggedRow
  | [] => []
  | r :: rs => (r, i, isNew) :: tag_from (i + 1) isNew rs

/-- The `__key` column of a tagged row. -/
def row_key (t : TaggedRow) : Option String := merge_key t.1

/-- Strict ascending order on `end_time` values, NaT (`none`) last, as in
pandas `sort_values`. -/
def time_lt (x y : Option Int) : Bool :=
  match x, y with
  | some a, some b => decide (a < b)
  | some _, none => true
  | none, _ => false

/-- `beats a b` iff `a` sorts strictly after `b` within one `__key` group
of the stable lexicographic sort on `(__key, __is_new, end_time)` — that
is, `a` rather than `b` survives `drop_duplicates(subset="__key",
keep="last")`.  New rows sort after existing ones, then later `end_time`
(NaT last), and ties are broken by the original position (the lexsort is
stable). -/
def beats (a b : TaggedRow) : Bool :=
  if a.2.2 ≠ b.2.2 then a.2.2
  else if a.1.end_time ≠ b.1.end_time then time_lt b.1.end_time a.1.end_time
  else decide (b.2.1 < a.2.1)

/-- Fold step selecting the group member that sorts last. -/
def pick (acc : Option TaggedRow) (t : TaggedRow) : Option TaggedRow :=
  match acc with
  | none => some t
  | some b => if beats t b then some t else some b

/-- The group member surviving `keep="last"`. -/
def best_of (l : List TaggedRow) : Option TaggedRow := l.foldl pick none

/-- `sort_values(["__key","__is_new","end_time"]).drop_duplicates(subset="__key", keep="last")`:
one survivor per distinct `__key` value, namely the group member sorting
last under the stable lexicographic order. -/
def dedup_last_by_key (l : List TaggedRow) : List TaggedRow :=
  (l.map row_key).dedup.filterMap
    (fun k => best_of (l.filter (fun t => decide (row_key t = k))))

/-- Non-strict version of `time_lt`, for the final sort. -/
def time_le (x y : Option Int) : Bool :=
  match x, y with
  | some a, some b => decide (a ≤ b)
  | some _, none => true
  | none, some _ => false
  | none, none => true

/-- The trailing `.sort_values("end_time")`.  The source's quicksort does
not specify the order of equal timestamps; any reordering by `end_time`
is faithful and the claims below are stated up to permutation. -/
def sort_by_end_time (l : List GameRow) : List GameRow :=
  l.insertionSort (fun a b => time_le a.end_time b.end_time = true)

/-- `FileCache.update_games`: merge a batch of freshly fetched rows into
the persisted dataset.  `existing` is the parquet on disk (`none` when
the file is absent or unreadable).  With no existing dataset the batch is
stored as-is; with an empty batch the existing dataset is kept; otherwise
every calendar month touched by the batch is dropped from the existing
rows, the batch is appended, and duplicates by `__key` are resolved in
favour of the row sorting last on `(__is_new, end_time, position)`. -/
def update_games (existing : Option (List GameRow)) (games_rows : List GameRow) :
    List GameRow :=
  match existing, games_rows with
  | none, newRows => newRows
  | some ex, [] => ex
  | some ex, newRows =>
    let upd_months := newRows.map (fun r => to_period_m r.end_time)
    let kept := ex.filter (fun r => !(decide (to_period_m r.end_time ∈ upd_months)))
    let tagged := tag_from 0 false kept ++ tag_from kept.length true newRows
    sort_by_end_time ((dedup_last_by_key tagged).map (fun t => t.1))

/-- The deduplication key as the spec words it (modelled from the spec
for claim C4): game_url, falling back to pgn_url, falling back to a
composite of end_time plus both usernames.  The URL and composite key
spaces are kept distinct. -/
inductive SpecKey where
  | url (u : String)
  | composite (t : Option Int) (a b : Option String)
deriving DecidableEq, Repr

/-- The spec's per-row fallback chain for claim C4. -/
def spec_dedup_key (r : GameRow) : SpecKey :=
  match r.game_url with
  | some u => .url u
  | none =>
    match r.pgn_url with
    | some p => .url p
    | none => .composite r.end_time r.username r.opponent_username

/-! ### Opening matcher (`src/services/data_manager.py`) -/

/-- The exact-prefix index of `_build_exact_index`: a dictionary from SAN
move-sequence tuples to opening ids, modelled as an association list with
unique keys. -/
abbrev OpeningIndex := List (List String × Nat)

/-- Dictionary lookup (`key in idx` / `idx[key]`). -/
def lookup_idx (idx : OpeningIndex) (key : List String) : Option Nat :=
  match idx with
  | [] => none
  | (k, v) :: rest => if k = key then some v else lookup_idx rest key

/-- Dictionary store `idx[key] = oid` (functional update). -/
def set_idx (idx : OpeningIndex) (key : List String) (oid : Nat) : OpeningIndex :=
  match idx with
  | [] => [(key, oid)]
  | (k, v) :: rest => if k = key then (k, oid) :: rest else (k, v) :: set_idx rest key oid

/-- One iteration of `_build_exact_index`'s loop over catalog rows
`(oid, sans)`: truncate to `max_plies`, track the longest truncated key
in `max_len`, and write the id only when the key is absent or carries a
larger id (`if key not in idx or int(oid) < idx[key]`). -/
def build_step (max_plies : Nat) (acc : OpeningIndex × Nat) (p : Nat × List String) :
    OpeningIndex × Nat :=
  match lookup_idx acc.1 (p.2.take max_plies) with
  | none =>
    (set_idx acc.1 (p.2.take max_plies) p.1, max acc.2 (p.2.take max_plies).length)
  | some v =>
    (if p.1 < v then set_idx acc.1 (p.2.take max_plies) p.1 else acc.1,
     max acc.2 (p.2.take max_plies).length)

/-- `DataManager._build_exact_index`: returns the index and the longest
key length. -/
def build_exact_index (openings : List (Nat × List String)) (max_plies : Nat) :
    OpeningIndex × Nat :=
  openings.foldl (build_step max_plies) ([], 0)

/-- The countdown loop `for k in range(n, 0, -1)` of
`_match_exact_longest`: try prefixes of length `n, n-1, …, 1`, returning
on the first hit, `(None, 0)` when the loop falls through. -/
def match_from (sans : List String) (idx : OpeningIndex) : Nat → Option Nat × Nat
  | 0 => (none, 0)
  | k + 1 =>
    match lookup_idx idx (sans.take (k + 1)) with
    | some v => (some v, k + 1)
    | none => match_from sans idx k

/-- `DataManager._match_exact_longest`: `n = min(len(sans), max_key_len)`
then the longest-to-shortest prefix search. -/
def match_exact_longest (sans : List String) (idx : OpeningIndex) (max_key_len : Nat) :
    Option Nat × Nat :=
  match_from sans idx (min sans.length max_key_len)

/-- The matching algorithm as the spec words it (second definition, for
the refinement claim C5): truncate the game's move list to the 80-ply
bound, then try successively shorter prefixes from longest to
shortest. -/
def spec_match_80 (sans : List String) (idx : OpeningIndex) : Option Nat × Nat :=
  match_from (sans.take 80) idx (sans.take 80).length

end ChessLense

namespace ChessLense

/-! ### Theorems for result simplification, staleness, path normalization -/

/-- C8: the result-simplification maps "win" to win, every draw-bucket code
to draw, every loss-bucket code to loss, any code whose lowercase form is
outside the three buckets to `none`, and `None` to `none` (it is a total
function, so no exception can be raised). -/
theorem C8_simplify_result_buckets :
    simplify_result (some "win") = some "win"
    ∧ (∀ s ∈ draw_codes, simplify_result (some s) = some "draw")
    ∧ (∀ s ∈ loss_codes, simplify_result (some s) = some "loss")
    ∧ (∀ s : String, lowerStr s ∉ "win" :: (draw_codes ++ loss_codes) →
        simplify_result (some s) = none)
    ∧ simplify_result none = none := by
  refine ⟨by decide, ?_, ?_, ?_, rfl⟩
  · intro s hs
    simp only [draw_codes, List.mem_cons, List.not_mem_nil, or_false] at hs
    rcases hs with h | h | h | h | h | h <;> subst h <;> decide
  · intro s hs
    simp only [loss_codes, List.mem_cons, List.not_mem_nil, or_false] at hs
    rcases hs with h | h | h | h | h <;> subst h <;> decide
  · intro s h
    simp only [List.mem_cons, List.mem_append, not_or] at h
    obtain ⟨h1, h2, h3⟩ := h
    simp only [simplify_result, List.mem_cons, List.not_mem_nil, or_false]
    rw [if_neg h1, if_neg h2, if_neg h3]

/-- Witness for C8 at concrete inputs: the hypothetical future code
"adjudicated" is unrecognized and yields `none`; "agreed" is a draw code
and yields draw. -/
theorem C8_simplify_result_buckets_witness :
    (lowerStr "adjudicated" ∉ "win" :: (draw_codes ++ loss_codes)
      ∧ simplify_result (some "adjudicated") = none)
    ∧ ("agreed" ∈ draw_codes ∧ simplify_result (some "agreed") = some "draw") :=
  ⟨⟨by decide, C8_simplify_result_buckets.2.2.2.1 "adjudicated" (by decide)⟩,
   ⟨by decide, C8_simplify_result_buckets.2.1 "agreed" (by decide)⟩⟩

/-- C9: an index entry is stale iff `updated_on` is unset or more than 24
hours older than `now`; in particular an entry synced 23 hours ago is not
stale and one synced 25 hours ago is stale. -/
theorem C9_staleness_window :
    (∀ (e : IndexEntry) (now : Int),
      e.is_update_needed now = true ↔
        (e.updated_on = none ∨ ∃ t, e.updated_on = some t ∧ t < now - 24 * 3600))
    ∧ (∀ (now : Int) (u : String) (g : Option String) (c : Int),
        (IndexEntry.mk u g c (some (now - 23 * 3600))).is_update_needed now = false)
    ∧ (∀ (now : Int) (u : String) (g : Option String) (c : Int),
        (IndexEntry.mk u g c (some (now - 25 * 3600))).is_update_needed now = true) := by
  refine ⟨?_, ?_, ?_⟩
  · intro e now
    cases h : e.updated_on with
    | none => simp [IndexEntry.is_update_needed, h]
    | some t =>
      simp only [IndexEntry.is_update_needed, h, decide_eq_true_eq,
        reduceCtorEq, false_or]
      constructor
      · intro ht; exact ⟨t, rfl, ht⟩
      · rintro ⟨t', ht', hlt⟩
        cases ht'
        exact hlt
  · intro now u g c
    simp only [IndexEntry.is_update_needed, decide_eq_false_iff_not, not_lt]
    omega
  · intro now u g c
    simp only [IndexEntry.is_update_needed, decide_eq_true_eq]
    omega

/-- C10: the cache strips surrounding whitespace and lowercases the
username before deriving the per-user folder and the index/raw/games
paths, so usernames differing only in case or surrounding whitespace
address the same on-disk files. -/
theorem C10_username_normalization (base u v : String)
    (h : lowerStr (stripStr u) = lowerStr (stripStr v)) :
    user_folder base u = user_folder base v
    ∧ index_path base u = index_path base v
    ∧ raw_path base u = raw_path base v
    ∧ games_path base u = games_path base v := by
  have hf : user_folder base u = user_folder base v := by
    simp [user_folder, normalized_username, h]
  exact ⟨hf, by simp [index_path, hf], by simp [raw_path, hf], by simp [games_path, hf]⟩

/-- Witness for C10: " Alice " and "alice" differ only in case and
surrounding whitespace and get the same index path. -/
theorem C10_username_normalization_witness :
    lowerStr (stripStr " Alice ") = lowerStr (stripStr "alice")
    ∧ index_path ".cache" " Alice " = index_path ".cache" "alice" :=
  ⟨by decide, (C10_username_normalization ".cache" " Alice " "alice" (by decide)).2.1⟩

/-- C6: the claim says a game matching neither side (case-insensitively)
is skipped with a warning and produces no record, never raising an
exception.  Evaluating `from_game` at such a game (tracked user "carol",
players "alice" and "bob") shows the code instead raises
`UnboundLocalError` when it builds the row from unbound locals.  For
contrast, a game where exactly one side matches (white "Carol ", stripped
and lowercased) does produce a row with `user_played_as` set to that
side. -/
theorem C6_unmatched_game_raises :
    from_game
        { white := { username := some "alice" }, black := { username := some "bob" } }
        "carol" = .error "UnboundLocalError"
    ∧ (from_game
        { white := { username := some "Carol " }, black := { username := some "bob" } }
        "carol").map (fun r => r.user_played_as) = .ok (some "white") :=
  ⟨rfl, rfl⟩

/-- C1: evaluation at the failing input.  A cached index whose
archive-list entry is stale holds archive "A" with a stored etag and sync
timestamp.  After the archive-list refetch returns `["A", "B"]`, entry
"A" has lost its etag and timestamp (it is rebuilt fresh), and after a
refetch returning `["B"]` the entry "A" is gone from the index
altogether — contradicting "existing URLs keep their stored etag/state"
and "archive URLs are never removed". -/
theorem C1_reconciliation_discards_state :
    (reload_index
      (some { archives_list := { url := "L", etag := some "le", updated_on := some 0 }
              archives := [{ url := "A", etag := some "x", created_on := 5,
                             updated_on := some 7 }] })
      "u" (.ok ["A", "B"] (some "le2")) 1000000 =
      .ok { archives_list := { url := archives_url "u", etag := some "le2",
                               updated_on := some 1000000 }
            archives := [{ url := "A" }, { url := "B" }] })
    ∧ (reload_index
      (some { archives_list := { url := "L", etag := some "le", updated_on := some 0 }
              archives := [{ url := "A", etag := some "x", created_on := 5,
                             updated_on := some 7 }] })
      "u" (.ok ["B"] (some "le2")) 1000000 =
      .ok { archives_list := { url := archives_url "u", etag := some "le2",
                               updated_on := some 1000000 }
            archives := [{ url := "B" }] }) :=
  ⟨rfl, rfl⟩

/-- C7 counterexample: on a network error (`requests.RequestException`),
`download_index` does not return null — it re-raises the exception to the
caller. -/
theorem C7_network_error_raises :
    download_index "u" .netError 0 = .error () := rfl

/-- C7 (amended): on a network error while fetching the archive list the
downloader logs and re-raises the exception to the caller; an unexpected
HTTP status is swallowed and yields a freshly built index whose entries
carry no etag and no sync timestamp, so the archive list is due for
retry on the next sync cycle. -/
theorem C7_archive_list_error_contract (username : String) (now : Int) :
    download_index username .netError now = .error ()
    ∧ download_index username .otherStatus now =
        .ok { archives_list := { url := archives_url username }, archives := [] }
    ∧ (IndexEntry.mk (archives_url username) none 0 none).is_update_needed now = true :=
  ⟨rfl, rfl, rfl⟩

/-- C2 counterexample: a stale entry (last synced at epoch 0, queried at
`now = 10^6`) whose archive fetch answers 304 Not-Modified keeps its old
timestamp and still reports stale — the 304 is not recorded as "synced
now", contradicting the claim. -/
theorem C2_not_modified_keeps_timestamp :
    sync_archive_step { url := "A", etag := some "x", updated_on := some 0 }
        .notModified "u" 1000000 =
      ({ url := "A", etag := some "x", updated_on := some 0 }, [])
    ∧ (IndexEntry.mk "A" (some "x") 0 (some 0)).is_update_needed 1000000 = true :=
  ⟨rfl, rfl⟩

/-- C2 (amended): for a stale entry the sync loop stamps `updated_on :=
now` exactly when the fetch returns a parsed payload (HTTP 200 with valid
JSON); on 304, 429, 404, other statuses, JSON parse failures and network
errors the timestamp is left unchanged, so the entry is fetched again on
the next cycle. -/
theorem C2_timestamp_only_on_payload (e : IndexEntry) (resp : ArchiveResponse)
    (username : String) (now : Int) (h : e.is_update_needed now = true) :
    (sync_archive_step e resp username now).1.updated_on =
      match resp with
      | .ok _ _ => some now
      | _ => e.updated_on := by
  cases resp <;> simp [sync_archive_step, fetch_conditional_json, h]

/-- Witness for C2 (amended) at a concrete never-synced entry: a 304
leaves the timestamp unset, a 200 with an empty payload stamps it. -/
theorem C2_timestamp_only_on_payload_witness :
    (IndexEntry.mk "A" none 0 none).is_update_needed 500 = true
    ∧ (sync_archive_step { url := "A" } .notModified "u" 500).1.updated_on = none
    ∧ (sync_archive_step { url := "A" } (.ok [] none) "u" 500).1.updated_on = some 500 :=
  ⟨rfl, C2_timestamp_only_on_payload { url := "A" } .notModified "u" 500 rfl,
   C2_timestamp_only_on_payload { url := "A" } (.ok [] none) "u" 500 rfl⟩

/-! ### Helper lemmas for the merge pipeline -/

theorem tag_from_mem {t : TaggedRow} {b : Bool} :
    ∀ {i : Nat} {l : List GameRow}, t ∈ tag_from i b l → t.1 ∈ l ∧ t.2.2 = b := by
  intro i l
  induction l generalizing i with
  | nil => intro h; simp [tag_from] at h
  | cons r rs ih =>
    intro h
    simp only [tag_from, List.mem_cons] at h
    rcases h with h | h
    · subst h; exact ⟨List.mem_cons_self _ _, rfl⟩
    · obtain ⟨h1, h2⟩ := ih h
      exact ⟨List.mem_cons_of_mem _ h1, h2⟩

theorem map_fst_tag_from (b : Bool) :
    ∀ (i : Nat) (l : List GameRow), (tag_from i b l).map (fun t => t.1) = l := by
  intro i l
  induction l generalizing i with
  | nil => rfl
  | cons r rs ih => simp [tag_from, ih]

theorem map_key_tag_from (b : Bool) :
    ∀ (i : Nat) (l : List GameRow), (tag_from i b l).map row_key = l.map merge_key := by
  intro i l
  induction l generalizing i with
  | nil => rfl
  | cons r rs ih => simp [tag_from, ih, row_key]

theorem filter_tag_from (b : Bool) (k : Option String) :
    ∀ (i : Nat) (l : List GameRow),
      ((tag_from i b l).filter (fun t => decide (row_key t = k))).map (fun t => t.1)
        = l.filter (fun r => decide (merge_key r = k)) := by
  intro i l
  induction l generalizing i with
  | nil => rfl
  | cons r rs ih =>
    show (((r, i, b) :: tag_from (i + 1) b rs).filter
        (fun t => decide (row_key t = k))).map (fun t => t.1)
      = (r :: rs).filter (fun s => decide (merge_key s = k))
    by_cases h : merge_key r = k
    · rw [List.filter_cons_of_pos (p := fun t : TaggedRow => decide (row_key t = k))
            (decide_eq_true (show row_key (r, i, b) = k from h)),
          List.filter_cons_of_pos (p := fun s : GameRow => decide (merge_key s = k))
            (decide_eq_true h),
          List.map_cons, ih]
    · rw [List.filter_cons_of_neg (p := fun t : TaggedRow => decide (row_key t = k))
            (by simpa using show ¬ row_key (r, i, b) = k from h),
          List.filter_cons_of_neg (p := fun s : GameRow => decide (merge_key s = k))
            (by simpa using h),
          ih]

theorem foldl_pick_mem :
    ∀ {l : List TaggedRow} {acc : Option TaggedRow} {m : TaggedRow},
      l.foldl pick acc = some m → acc = some m ∨ m ∈ l := by
  intro l
  induction l with
  | nil => intro acc m h; exact Or.inl h
  | cons t ts ih =>
    intro acc m h
    rcases ih h with h' | h'
    · cases acc with
      | none =>
        have h2 : some t = some m := h'
        cases h2
        exact Or.inr (List.mem_cons_self _ _)
      | some b =>
        have h2 : (if beats t b = true then some t else some b) = some m := h'
        by_cases hb : beats t b = true
        · rw [if_pos hb] at h2
          cases h2
          exact Or.inr (List.mem_cons_self _ _)
        · rw [if_neg hb] at h2
          exact Or.inl h2
    · exact Or.inr (List.mem_cons_of_mem _ h')

theorem foldl_pick_dominated :
    ∀ {l : List TaggedRow} {b : TaggedRow},
      (∀ x ∈ l, beats x b = false) → l.foldl pick (some b) = some b := by
  intro l
  induction l with
  | nil => intro b _; rfl
  | cons t ts ih =>
    intro b h
    have ht : beats t b = false := h t (List.mem_cons_self _ _)
    show (ts.foldl pick (pick (some b) t)) = some b
    have : pick (some b) t = some b := by simp [pick, ht]
    rw [this]
    exact ih fun x hx => h x (List.mem_cons_of_mem _ hx)

theorem beats_irrefl (t : TaggedRow) : beats t t = false := by
  simp [beats]

theorem best_of_eq {l : List TaggedRow} {m : TaggedRow} (hm : m ∈ l)
    (hdom : ∀ x ∈ l, x = m ∨ (beats m x = true ∧ beats x m = false)) :
    best_of l = some m := by
  obtain ⟨s, t2, rfl⟩ := List.append_of_mem hm
  unfold best_of
  rw [List.foldl_append]
  have hdom2 : ∀ x ∈ t2, beats x m = false := by
    intro x hx
    rcases hdom x (List.mem_append_right _ (List.mem_cons_of_mem _ hx)) with rfl | ⟨_, h2⟩
    · exact beats_irrefl x
    · exact h2
  cases hacc : List.foldl pick none s with
  | none =>
    show List.foldl pick (pick none m) t2 = some m
    exact foldl_pick_dominated hdom2
  | some x =>
    have hx : x ∈ s := by
      rcases foldl_pick_mem hacc with h | h
      · exact absurd h (by simp)
      · exact h
    have hpick : pick (some x) m = some m := by
      rcases hdom x (List.mem_append_left _ hx) with rfl | ⟨h1, _⟩
      · simp [pick, beats_irrefl]
      · simp [pick, h1]
    show List.foldl pick (pick (some x) m) t2 = some m
    rw [hpick]
    exact foldl_pick_dominated hdom2

theorem mem_best_of {l : List TaggedRow} {m : TaggedRow} (h : best_of l = some m) :
    m ∈ l := by
  rcases foldl_pick_mem h with h' | h'
  · exact absurd h' (by simp)
  · exact h'

theorem pairwise_keys_dedup_last (l : List TaggedRow) :
    (dedup_last_by_key l).Pairwise fun a b => row_key a ≠ row_key b := by
  unfold dedup_last_by_key
  rw [List.pairwise_filterMap]
  have hnd : ((l.map row_key).dedup).Pairwise (fun a b => a ≠ b) := List.nodup_dedup _
  refine hnd.imp ?_
  intro k k' hkk' s hs s' hs'
  have h1 : row_key s = k := by
    have hf : s ∈ l.filter (fun t => decide (row_key t = k)) :=
      mem_best_of (Option.mem_def.mp hs)
    exact of_decide_eq_true (List.mem_filter.mp hf).2
  have h2 : row_key s' = k' := by
    have hf : s' ∈ l.filter (fun t => decide (row_key t = k')) :=
      mem_best_of (Option.mem_def.mp hs')
    exact of_decide_eq_true (List.mem_filter.mp hf).2
  rw [h1, h2]
  exact hkk'

theorem dedup_last_of_nodup :
    ∀ {l : List TaggedRow}, ((l.map row_key).Nodup) → dedup_last_by_key l = l := by
  intro l
  induction l with
  | nil => intro _; rfl
  | cons t ts ih =>
    intro h
    rw [List.map_cons, List.nodup_cons] at h
    obtain ⟨h0, h1⟩ := h
    have hded : ((t :: ts).map row_key).dedup = row_key t :: (ts.map row_key) := by
      rw [List.map_cons, List.dedup_cons_of_not_mem h0, h1.dedup]
    unfold dedup_last_by_key
    rw [hded, List.filterMap_cons]
    have hfilt_self : (t :: ts).filter (fun x => decide (row_key x = row_key t)) = [t] := by
      rw [List.filter_cons_of_pos (by simp)]
      have : ts.filter (fun x => decide (row_key x = row_key t)) = [] := by
        rw [List.filter_eq_nil_iff]
        intro a ha hda
        exact h0 (List.mem_map.mpr ⟨a, ha, of_decide_eq_true hda⟩)
      rw [this]
    rw [hfilt_self]
    show t :: (ts.map row_key).filterMap
        (fun k => best_of ((t :: ts).filter fun x => decide (row_key x = k))) = t :: ts
    congr 1
    have hcongr : (ts.map row_key).filterMap
        (fun k => best_of ((t :: ts).filter fun x => decide (row_key x = k)))
        = (ts.map row_key).filterMap
        (fun k => best_of (ts.filter fun x => decide (row_key x = k))) := by
      apply List.filterMap_congr
      intro k hk
      have hne : ¬(row_key t = k) := by
        intro he
        exact h0 (he ▸ hk)
      rw [List.filter_cons_of_neg (by simpa using hne)]
    rw [hcongr]
    have := ih h1
    unfold dedup_last_by_key at this
    rw [h1.dedup] at this
    exact this

theorem sort_by_end_time_perm (l : List GameRow) : (sort_by_end_time l).Perm l :=
  List.perm_insertionSort _ l

theorem update_games_cons (ex : List GameRow) (n : GameRow) (ns : List GameRow) :
    update_games (some ex) (n :: ns) =
      sort_by_end_time ((dedup_last_by_key
        (tag_from 0 false
            (ex.filter fun r =>
              !(decide (to_period_m r.end_time ∈ (n :: ns).map fun s => to_period_m s.end_time)))
          ++ tag_from
            (ex.filter fun r =>
              !(decide (to_period_m r.end_time ∈ (n :: ns).map fun s => to_period_m s.end_time))).length
            true (n :: ns))).map fun t => t.1) := rfl

theorem spec_key_to_merge_key {a b : GameRow}
    (h : spec_dedup_key a = spec_dedup_key b) : merge_key a = merge_key b := by
  unfold spec_dedup_key at h
  unfold merge_key
  cases ha : a.game_url <;> cases hb : b.game_url <;>
    cases ha2 : a.pgn_url <;> cases hb2 : b.pgn_url <;>
    simp_all

/-- C3: merging a nonempty batch of rows all falling in month `m2` into
an existing dataset whose rows fall in months `m1` or `m2` yields (up to
the final reordering by `end_time`) exactly the existing `m1` rows plus
the batch — month `m2` is replaced wholesale, even when the batch has
fewer `m2` rows than the dataset had before.  The key-distinctness
hypothesis is the dataset invariant: surviving `m1` rows and batch rows
carry pairwise distinct dedup keys. -/
theorem C3_month_replacement (ex newRows : List GameRow) (m1 m2 : Int × Int)
    (hne : m1 ≠ m2)
    (hex : ∀ r ∈ ex, to_period_m r.end_time = some m1 ∨ to_period_m r.end_time = some m2)
    (hnew : ∀ r ∈ newRows, to_period_m r.end_time = some m2)
    (hcons : newRows ≠ [])
    (hkeys : (((ex.filter fun r => decide (to_period_m r.end_time = some m1))
        ++ newRows).map merge_key).Nodup) :
    (update_games (some ex) newRows).Perm
      ((ex.filter fun r => decide (to_period_m r.end_time = some m1)) ++ newRows) := by
  obtain ⟨n, ns, rfl⟩ := List.exists_cons_of_ne_nil hcons
  have hkept : (ex.filter fun r =>
      !(decide (to_period_m r.end_time ∈ (n :: ns).map fun s => to_period_m s.end_time)))
      = ex.filter fun r => decide (to_period_m r.end_time = some m1) := by
    apply List.filter_congr
    intro r hr
    rcases hex r hr with h | h
    · have hnotin : to_period_m r.end_time ∉ (n :: ns).map fun s => to_period_m s.end_time := by
        rw [h]
        intro hmem
        obtain ⟨s, hs, hs2⟩ := List.mem_map.mp hmem
        rw [hnew s hs] at hs2
        exact hne (Option.some.inj hs2).symm
      rw [decide_eq_false hnotin, h]
      simp
    · have hmem : to_period_m r.end_time ∈ (n :: ns).map fun s => to_period_m s.end_time := by
        rw [h]
        exact List.mem_map.mpr ⟨n, List.mem_cons_self _ _, hnew n (List.mem_cons_self _ _)⟩
      rw [decide_eq_true hmem, h]
      simp [Ne.symm hne]
  rw [update_games_cons, hkept]
  have hkeysmap : (((tag_from 0 false
      (ex.filter fun r => decide (to_period_m r.end_time = some m1))).map row_key)
      ++ ((tag_from (ex.filter fun r =>
            decide (to_period_m r.end_time = some m1)).length true (n :: ns)).map row_key)).Nodup := by
    rw [map_key_tag_from, map_key_tag_from, ← List.map_append]
    exact hkeys
  rw [← List.map_append] at hkeysmap
  rw [dedup_last_of_nodup hkeysmap, List.map_append, map_fst_tag_from, map_fst_tag_from]
  exact sort_by_end_time_perm _

/-- Witness for C3 at a concrete dataset: existing rows in 2024-01 and
2024-02, a one-row batch in 2024-02; the merged dataset is a permutation
of the January row plus the batch (the old February row is gone). -/
theorem C3_month_replacement_witness :
    (update_games
        (some [{ end_time := some 1705276800, game_url := some "a" },
               { end_time := some 1706745600, game_url := some "b" }])
        [{ end_time := some 1706832000, game_url := some "c" }]).Perm
      (([({ end_time := some 1705276800, game_url := some "a" } : GameRow),
         { end_time := some 1706745600, game_url := some "b" }].filter
          fun r => decide (to_period_m r.end_time = some ((2024 : Int), (1 : Int))))
        ++ [{ end_time := some 1706832000, game_url := some "c" }]) :=
  C3_month_replacement
    [{ end_time := some 1705276800, game_url := some "a" },
     { end_time := some 1706745600, game_url := some "b" }]
    [{ end_time := some 1706832000, game_url := some "c" }]
    (2024, 1) (2024, 2) (by decide) (by decide) (by decide) (by decide) (by decide)

/-- C4 counterexamples, refuting the claim on two points.
First: on the very first merge (no existing dataset file), `update_games`
persists the batch as-is without deduplication, so two batch rows sharing
the dedup key `game_url = "u"` both survive — "after every merge ... at
most one row per deduplication key" is false as stated.
Second: the claimed per-row composite fallback does not exist — rows
missing both URLs all share a single NaN key, so "the new row's fields
win" fails for composite keys: existing row `e` and new row `n` share the
composite key (end_time 1705276800, "alice", "bob") and `n` is the only
batch row with that key, yet the merge keeps only the other URL-less
batch row `m` (which sorts later), dropping `n`. -/
theorem C4_dedup_key_counterexamples :
    (update_games none
        [{ game_url := some "u", user_rating := some 1000 },
         { game_url := some "u", user_rating := some 1200 }] =
      [{ game_url := some "u", user_rating := some 1000 },
       { game_url := some "u", user_rating := some 1200 }]
    ∧ spec_dedup_key { game_url := some "u", user_rating := some 1000 } =
        spec_dedup_key { game_url := some "u", user_rating := some 1200 }
    ∧ ({ game_url := some "u", user_rating := some 1000 } : GameRow) ≠
        { game_url := some "u", user_rating := some 1200 })
    ∧ (update_games
        (some [{ end_time := some 1705276800, username := some "alice",
                 opponent_username := some "bob", user_rating := some 1000 }])
        [{ end_time := some 1705276800, username := some "alice",
           opponent_username := some "bob", user_rating := some 1100 },
         { end_time := some 1705280000, username := some "carol",
           opponent_username := some "dave", user_rating := some 1200 }] =
      [{ end_time := some 1705280000, username := some "carol",
         opponent_username := some "dave", user_rating := some 1200 }]
    ∧ spec_dedup_key { end_time := some 1705276800, username := some "alice",
                       opponent_username := some "bob", user_rating := some 1000 } =
        spec_dedup_key { end_time := some 1705276800, username := some "alice",
                         opponent_username := some "bob", user_rating := some 1100 }
    ∧ spec_dedup_key { end_time := some 1705276800, username := some "alice",
                       opponent_username := some "bob", user_rating := some 1100 } ≠
        spec_dedup_key { end_time := some 1705280000, username := some "carol",
                         opponent_username := some "dave", user_rating := some 1200 }
    ∧ ({ end_time := some 1705276800, username := some "alice",
         opponent_username := some "bob", user_rating := some 1000 } : GameRow) ≠
        { end_time := some 1705276800, username := some "alice",
          opponent_username := some "bob", user_rating := some 1100 }
    ∧ ({ end_time := some 1705276800, username := some "alice",
         opponent_username := some "bob", user_rating := some 1100 } : GameRow) ≠
        { end_time := some 1705280000, username := some "carol",
          opponent_username := some "dave", user_rating := some 1200 }) :=
  ⟨⟨rfl, rfl, by decide⟩, rfl, rfl, by decide, by decide, by decide⟩

/-- C4 (amended): when a nonempty batch is merged into an existing
dataset, the result has at most one row per deduplication key.  The key
the code dedups by is game_url falling back to pgn_url, with all rows
missing both URLs sharing one single (NaN) key — there is no per-row
composite fallback — so at most one row per the claim's finer key chain
holds a fortiori (part 1, stated over `spec_dedup_key`).  Whenever an
existing row and a new row share a key and the new row is the only batch
row with that code key (`merge_key`), the new row's fields win: the new
row is in the result and the existing row is not (part 2). -/
theorem C4_dedup_semantics (ex newRows : List GameRow) (hne : newRows ≠ []) :
    ((update_games (some ex) newRows).Pairwise
      fun a b => spec_dedup_key a ≠ spec_dedup_key b)
    ∧ (∀ e n, e ∈ ex → n ∈ newRows → spec_dedup_key e = spec_dedup_key n → e ≠ n →
        newRows.filter (fun r => decide (merge_key r = merge_key n)) = [n] →
        n ∈ update_games (some ex) newRows ∧ e ∉ update_games (some ex) newRows) := by
  obtain ⟨n0, ns, rfl⟩ := List.exists_cons_of_ne_nil hne
  rw [update_games_cons]
  set kept := ex.filter (fun r =>
    !(decide (to_period_m r.end_time ∈ (n0 :: ns).map fun s => to_period_m s.end_time)))
    with hkept_def
  set tagged := tag_from 0 false kept ++ tag_from kept.length true (n0 :: ns)
    with htagged_def
  have hsym : ∀ {x y : GameRow},
      spec_dedup_key x ≠ spec_dedup_key y → spec_dedup_key y ≠ spec_dedup_key x :=
    fun h h2 => h h2.symm
  constructor
  · have hmap : ((dedup_last_by_key tagged).map fun t => t.1).Pairwise
        (fun a b => spec_dedup_key a ≠ spec_dedup_key b) := by
      rw [List.pairwise_map]
      refine (pairwise_keys_dedup_last tagged).imp ?_
      intro s t hkey hspec
      exact hkey (spec_key_to_merge_key hspec)
    exact (List.Perm.pairwise_iff hsym (sort_by_end_time_perm _)).mpr hmap
  · intro e n he hn hspec hene hfilter
    have hmk : merge_key e = merge_key n := spec_key_to_merge_key hspec
    have hmapfst := filter_tag_from true (merge_key n) kept.length (n0 :: ns)
    rw [hfilter] at hmapfst
    obtain ⟨tn, htn_eq, htn_fst⟩ :
        ∃ tn, (tag_from kept.length true (n0 :: ns)).filter
            (fun t => decide (row_key t = merge_key n)) = [tn] ∧ tn.1 = n := by
      cases hcase : (tag_from kept.length true (n0 :: ns)).filter
          (fun t => decide (row_key t = merge_key n)) with
      | nil =>
        rw [hcase] at hmapfst
        exact absurd hmapfst (by simp)
      | cons a as =>
        rw [hcase, List.map_cons] at hmapfst
        injection hmapfst with h1 h2
        exact ⟨a, by rw [List.map_eq_nil_iff.mp h2], h1⟩
    have htn_mem : tn ∈ tag_from kept.length true (n0 :: ns) :=
      List.mem_of_mem_filter (htn_eq ▸ List.mem_cons_self tn [])
    have htn_new : tn.2.2 = true := (tag_from_mem htn_mem).2
    have htn_key : row_key tn = merge_key n := by rw [row_key, htn_fst]
    have hclass : tagged.filter (fun t => decide (row_key t = merge_key n))
        = (tag_from 0 false kept).filter (fun t => decide (row_key t = merge_key n))
          ++ [tn] := by
      rw [htagged_def, List.filter_append, htn_eq]
    have hbest : best_of (tagged.filter fun t => decide (row_key t = merge_key n))
        = some tn := by
      rw [hclass]
      apply best_of_eq (List.mem_append_right _ (List.mem_cons_self _ _))
      intro x hx
      rcases List.mem_append.mp hx with hx | hx
      · have hxold : x.2.2 = false := (tag_from_mem (List.mem_of_mem_filter hx)).2
        right
        constructor
        · show beats tn x = true
          simp [beats, htn_new, hxold]
        · show beats x tn = false
          simp [beats, htn_new, hxold]
      · exact Or.inl (List.mem_singleton.mp hx)
    have hk0 : merge_key n ∈ (tagged.map row_key).dedup := by
      rw [List.mem_dedup]
      exact List.mem_map.mpr ⟨tn, List.mem_append_right _ htn_mem, htn_key⟩
    have hnmem : n ∈ (dedup_last_by_key tagged).map (fun t => t.1) :=
      List.mem_map.mpr ⟨tn, by
        unfold dedup_last_by_key
        exact List.mem_filterMap.mpr ⟨merge_key n, hk0, hbest⟩, htn_fst⟩
    constructor
    · exact ((sort_by_end_time_perm _).mem_iff).mpr hnmem
    · intro hemem
      have he2 : e ∈ (dedup_last_by_key tagged).map (fun t => t.1) :=
        ((sort_by_end_time_perm _).mem_iff).mp hemem
      obtain ⟨s, hs, hsfst⟩ := List.mem_map.mp he2
      unfold dedup_last_by_key at hs
      obtain ⟨k, hk, hbk⟩ := List.mem_filterMap.mp hs
      have hskey : row_key s = k :=
        of_decide_eq_true (List.mem_filter.mp (mem_best_of hbk)).2
      have hs_to_n : row_key s = merge_key n := by rw [row_key, hsfst, hmk]
      rw [hskey] at hs_to_n
      rw [hs_to_n] at hbk
      have hstn : s = tn := Option.some.inj (hbk.symm.trans hbest)
      exact hene (by rw [← hsfst, hstn, htn_fst])

/-- Witness for C4 (amended): an existing January row and a February
batch row share `game_url = "u"`; after the merge the batch row is in the
dataset and the old row is gone, and the result has pairwise distinct
dedup keys. -/
theorem C4_dedup_semantics_witness :
    (({ end_time := some 1706745600, game_url := some "u", user_rating := some 1200 } : GameRow)
        ∈ update_games
          (some [{ end_time := some 1705276800, game_url := some "u", user_rating := some 1000 }])
          [{ end_time := some 1706745600, game_url := some "u", user_rating := some 1200 }]
      ∧ ({ end_time := some 1705276800, game_url := some "u", user_rating := some 1000 } : GameRow)
        ∉ update_games
          (some [{ end_time := some 1705276800, game_url := some "u", user_rating := some 1000 }])
          [{ end_time := some 1706745600, game_url := some "u", user_rating := some 1200 }])
    ∧ (update_games
        (some [{ end_time := some 1705276800, game_url := some "u", user_rating := some 1000 }])
        [{ end_time := some 1706745600, game_url := some "u", user_rating := some 1200 }]).Pairwise
        (fun a b => spec_dedup_key a ≠ spec_dedup_key b) :=
  ⟨(C4_dedup_semantics
      [{ end_time := some 1705276800, game_url := some "u", user_rating := some 1000 }]
      [{ end_time := some 1706745600, game_url := some "u", user_rating := some 1200 }]
      (by decide)).2
      { end_time := some 1705276800, game_url := some "u", user_rating := some 1000 }
      { end_time := some 1706745600, game_url := some "u", user_rating := some 1200 }
      (by decide) (by decide) (by decide) (by decide) (by decide),
   (C4_dedup_semantics
      [{ end_time := some 1705276800, game_url := some "u", user_rating := some 1000 }]
      [{ end_time := some 1706745600, game_url := some "u", user_rating := some 1200 }]
      (by decide)).1⟩

/-! ### Helper lemmas for the opening matcher -/

theorem lookup_set_idx (idx : OpeningIndex) (key : List String) (oid : Nat) :
    ∀ key', lookup_idx (set_idx idx key oid) key' =
      if key = key' then some oid else lookup_idx idx key' := by
  induction idx with
  | nil =>
    intro key'
    show (if key = key' then some oid else none) = _
    by_cases h : key = key' <;> simp [h, lookup_idx]
  | cons p rest ih =>
    obtain ⟨k, v⟩ := p
    intro key'
    simp only [set_idx]
    by_cases hk : k = key
    · subst hk
      simp only [if_pos rfl, lookup_idx]
      by_cases h2 : k = key' <;> simp [h2]
    · simp only [if_neg hk, lookup_idx, ih]
      by_cases h2 : k = key'
      · have h3 : ¬ key = key' := fun h => hk (h2.trans h.symm)
        simp [h2, h3]
      · by_cases h3 : key = key' <;> simp [h2, h3]

theorem build_step_bound (mp : Nat) (acc : OpeningIndex × Nat) (p : Nat × List String)
    (h : ∀ key v, lookup_idx acc.1 key = some v → key.length ≤ acc.2 ∧ key.length ≤ mp) :
    ∀ key v, lookup_idx (build_step mp acc p).1 key = some v →
      key.length ≤ (build_step mp acc p).2 ∧ key.length ≤ mp := by
  intro key v hl
  have hkey_len : (p.2.take mp).length ≤ mp := by
    rw [List.length_take]; exact Nat.min_le_left _ _
  unfold build_step at hl ⊢
  cases hcase : lookup_idx acc.1 (p.2.take mp) with
  | none =>
    simp only [hcase] at hl ⊢
    rw [lookup_set_idx] at hl
    by_cases hk : p.2.take mp = key
    · subst hk
      exact ⟨le_max_right _ _, hkey_len⟩
    · rw [if_neg hk] at hl
      obtain ⟨h1, h2⟩ := h key v hl
      exact ⟨h1.trans (le_max_left _ _), h2⟩
  | some w =>
    simp only [hcase] at hl ⊢
    by_cases hlt : p.1 < w
    · rw [if_pos hlt] at hl
      rw [lookup_set_idx] at hl
      by_cases hk : p.2.take mp = key
      · subst hk
        exact ⟨le_max_right _ _, hkey_len⟩
      · rw [if_neg hk] at hl
        obtain ⟨h1, h2⟩ := h key v hl
        exact ⟨h1.trans (le_max_left _ _), h2⟩
    · rw [if_neg hlt] at hl
      obtain ⟨h1, h2⟩ := h key v hl
      exact ⟨h1.trans (le_max_left _ _), h2⟩

theorem build_step_snd_le (mp : Nat) (acc : OpeningIndex × Nat) (p : Nat × List String)
    (h : acc.2 ≤ mp) : (build_step mp acc p).2 ≤ mp := by
  have hkl : (p.2.take mp).length ≤ mp := by
    rw [List.length_take]; exact Nat.min_le_left _ _
  unfold build_step
  split <;> exact max_le h hkl

theorem build_snd_le (openings : List (Nat × List String)) (mp : Nat) :
    (build_exact_index openings mp).2 ≤ mp := by
  unfold build_exact_index
  suffices h : ∀ (l : List (Nat × List String)) (acc : OpeningIndex × Nat),
      acc.2 ≤ mp → (List.foldl (build_step mp) acc l).2 ≤ mp from
    h openings ([], 0) (Nat.zero_le mp)
  intro l
  induction l with
  | nil => intro acc h; exact h
  | cons p ps ih => intro acc h; exact ih _ (build_step_snd_le mp acc p h)

theorem build_key_bound (openings : List (Nat × List String)) (mp : Nat) :
    ∀ key v, lookup_idx (build_exact_index openings mp).1 key = some v →
      key.length ≤ (build_exact_index openings mp).2 ∧ key.length ≤ mp := by
  unfold build_exact_index
  suffices h : ∀ (l : List (Nat × List String)) (acc : OpeningIndex × Nat),
      (∀ key v, lookup_idx acc.1 key = some v → key.length ≤ acc.2 ∧ key.length ≤ mp) →
      ∀ key v, lookup_idx (List.foldl (build_step mp) acc l).1 key = some v →
        key.length ≤ (List.foldl (build_step mp) acc l).2 ∧ key.length ≤ mp from
    h openings ([], 0) (fun key v hl => absurd hl (by simp [lookup_idx]))
  intro l
  induction l with
  | nil => intro acc h; exact h
  | cons p ps ih => intro acc h; exact ih _ (build_step_bound mp acc p h)

theorem match_from_eq_low {sans : List String} {idx : OpeningIndex} {L : Nat}
    (hL : ∀ key v, lookup_idx idx key = some v → key.length ≤ L) :
    ∀ n, L ≤ n → n ≤ sans.length → match_from sans idx n = match_from sans idx L := by
  intro n
  induction n with
  | zero => intro h1 _; rw [Nat.le_zero.mp h1]
  | succ m ih =>
    intro h1 h2
    rcases Nat.eq_or_lt_of_le h1 with he | hlt
    · rw [he]
    · have hm : L ≤ m := Nat.lt_succ_iff.mp hlt
      have hnone : lookup_idx idx (sans.take (m + 1)) = none := by
        cases hcase : lookup_idx idx (sans.take (m + 1)) with
        | none => rfl
        | some v =>
          have hb := hL _ _ hcase
          rw [List.length_take] at hb
          omega
      show match_from sans idx (m + 1) = match_from sans idx L
      simp only [match_from, hnone]
      exact ih hm (by omega)

theorem match_from_take {sans : List String} {idx : OpeningIndex} (N : Nat) :
    ∀ n, n ≤ N → match_from (sans.take N) idx n = match_from sans idx n := by
  intro n
  induction n with
  | zero => intro _; rfl
  | succ m ih =>
    intro h
    have ht : (sans.take N).take (m + 1) = sans.take (m + 1) := by
      rw [List.take_take]
      congr 1
      omega
    simp only [match_from, ht]
    cases hcase : lookup_idx idx (sans.take (m + 1)) with
    | some v => simp [hcase]
    | none => simp only [hcase]; exact ih (by omega)

theorem match_from_none_iff {sans : List String} {idx : OpeningIndex} :
    ∀ n, match_from sans idx n = (none, 0) ↔
      ∀ j, 1 ≤ j → j ≤ n → lookup_idx idx (sans.take j) = none := by
  intro n
  induction n with
  | zero =>
    constructor
    · intro _ j _ h2; omega
    · intro _; rfl
  | succ m ih =>
    cases hcase : lookup_idx idx (sans.take (m + 1)) with
    | some v =>
      simp only [match_from, hcase]
      constructor
      · intro h; exact absurd h (by simp)
      · intro h
        have hc := h (m + 1) (by omega) (le_refl _)
        rw [hcase] at hc
        exact absurd hc (by simp)
    | none =>
      simp only [match_from, hcase]
      rw [ih]
      constructor
      · intro h j h1 h2
        rcases Nat.lt_or_ge j (m + 1) with hj | hj
        · exact h j h1 (by omega)
        · have hje : j = m + 1 := by omega
          rw [hje]; exact hcase
      · intro h j h1 h2
        exact h j h1 (by omega)

theorem match_from_some_char {sans : List String} {idx : OpeningIndex} :
    ∀ n (v : Nat) (k : Nat), match_from sans idx n = (some v, k) →
      1 ≤ k ∧ k ≤ n ∧ lookup_idx idx (sans.take k) = some v
        ∧ ∀ j, k < j → j ≤ n → lookup_idx idx (sans.take j) = none := by
  intro n
  induction n with
  | zero => intro v k h; exact absurd h (by simp [match_from])
  | succ m ih =>
    intro v k h
    cases hcase : lookup_idx idx (sans.take (m + 1)) with
    | some w =>
      simp only [match_from, hcase] at h
      have h1 : some w = some v := congrArg Prod.fst h
      have h2 : m + 1 = k := congrArg Prod.snd h
      refine ⟨by omega, by omega, ?_, ?_⟩
      · rw [← h2, hcase]; exact h1
      · intro j hj1 hj2; omega
    | none =>
      simp only [match_from, hcase] at h
      obtain ⟨h1, h2, h3, h4⟩ := ih v k h
      refine ⟨h1, by omega, h3, ?_⟩
      intro j hj1 hj2
      rcases Nat.lt_or_ge j (m + 1) with hj | hj
      · exact h4 j hj1 (by omega)
      · have hje : j = m + 1 := by omega
        rw [hje]; exact hcase

/-- C5: the opening matcher agrees with the spec's algorithm (truncate
the game's move list to the 80-ply bound, then try prefixes from longest
to shortest); whenever it returns `(some v, k)`, the `k`-prefix is in the
index with value `v` and no longer prefix within the 80-ply bound is, and
it returns `(none, 0)` exactly when no prefix of any length within the
bound is in the index.  At the claim's concrete catalog
(`["e4","e5"] -> 1`, `["e4","e5","Nf3"] -> 2`) the game
`["e4","e5","Nf3","Nc6"]` matches id 2 with matched ply count 3, not
id 1, and a game starting `d4` matches nothing. -/
theorem C5_opening_longest_match :
    (∀ (openings : List (Nat × List String)) (sans : List String),
      match_exact_longest sans (build_exact_index openings 80).1
          (build_exact_index openings 80).2
        = spec_match_80 sans (build_exact_index openings 80).1
      ∧ (∀ v k,
          match_exact_longest sans (build_exact_index openings 80).1
              (build_exact_index openings 80).2 = (some v, k) →
            1 ≤ k ∧ k ≤ min sans.length 80
            ∧ lookup_idx (build_exact_index openings 80).1 (sans.take k) = some v
            ∧ ∀ j, k < j → j ≤ min sans.length 80 →
                lookup_idx (build_exact_index openings 80).1 (sans.take j) = none)
      ∧ (match_exact_longest sans (build_exact_index openings 80).1
            (build_exact_index openings 80).2 = (none, 0) ↔
          ∀ j, 1 ≤ j → j ≤ min sans.length 80 →
            lookup_idx (build_exact_index openings 80).1 (sans.take j) = none))
    ∧ match_exact_longest ["e4", "e5", "Nf3", "Nc6"]
        (build_exact_index [(1, ["e4", "e5"]), (2, ["e4", "e5", "Nf3"])] 80).1
        (build_exact_index [(1, ["e4", "e5"]), (2, ["e4", "e5", "Nf3"])] 80).2
        = (some 2, 3)
    ∧ match_exact_longest ["d4", "d5"]
        (build_exact_index [(1, ["e4", "e5"]), (2, ["e4", "e5", "Nf3"])] 80).1
        (build_exact_index [(1, ["e4", "e5"]), (2, ["e4", "e5", "Nf3"])] 80).2
        = (none, 0) := by
  refine ⟨?_, by decide, by decide⟩
  intro openings sans
  have hbound := build_key_bound openings 80
  have hsnd := build_snd_le openings 80
  have hK : ∀ key v, lookup_idx (build_exact_index openings 80).1 key = some v →
      key.length ≤ min (build_exact_index openings 80).2 80 := by
    intro key v h
    rcases hbound key v h with ⟨a, b⟩
    omega
  refine ⟨?_, ?_, ?_⟩
  · unfold match_exact_longest spec_match_80
    have hlen : (sans.take 80).length = min 80 sans.length := List.length_take _ _
    rw [match_from_take 80 ((sans.take 80).length) (by rw [hlen]; omega), hlen]
    by_cases hc : sans.length ≤ min (build_exact_index openings 80).2 80
    · have e1 : min sans.length (build_exact_index openings 80).2 = sans.length := by omega
      have e2 : min 80 sans.length = sans.length := by omega
      rw [e1, e2]
    · push_neg at hc
      rw [match_from_eq_low hK (min sans.length (build_exact_index openings 80).2)
            (by omega) (by omega),
          match_from_eq_low hK (min 80 sans.length) (by omega) (by omega)]
  · intro v k h
    unfold match_exact_longest at h
    obtain ⟨h1, h2, h3, h4⟩ := match_from_some_char _ v k h
    have hkb := hbound _ _ h3
    rw [List.length_take] at hkb
    refine ⟨h1, by omega, h3, ?_⟩
    intro j hj1 hj2
    by_cases hj : j ≤ min sans.length (build_exact_index openings 80).2
    · exact h4 j hj1 hj
    · cases hcase : lookup_idx (build_exact_index openings 80).1 (sans.take j) with
      | none => rfl
      | some w =>
        have hw := hbound _ _ hcase
        rw [List.length_take] at hw
        omega
  · unfold match_exact_longest
    rw [match_from_none_iff]
    constructor
    · intro h j hj1 hj2
      by_cases hj : j ≤ min sans.length (build_exact_index openings 80).2
      · exact h j hj1 hj
      · cases hcase : lookup_idx (build_exact_index openings 80).1 (sans.take j) with
        | none => rfl
        | some w =>
          have hw := hbound _ _ hcase
          rw [List.length_take] at hw
          omega
    · intro h j hj1 hj2
      exact h j hj1 (by omega)

/-- Witness for C5 at the claim's concrete catalog: the matcher returns
`(some 2, 3)` and the characterization instantiates — the 3-prefix is in
the index with id 2 and no longer prefix within the bound matches. -/
theorem C5_opening_longest_match_witness :
    match_exact_longest ["e4", "e5", "Nf3", "Nc6"]
        (build_exact_index [(1, ["e4", "e5"]), (2, ["e4", "e5", "Nf3"])] 80).1
        (build_exact_index [(1, ["e4", "e5"]), (2, ["e4", "e5", "Nf3"])] 80).2
      = (some 2, 3)
    ∧ (1 ≤ 3 ∧ 3 ≤ min (["e4", "e5", "Nf3", "Nc6"] : List String).length 80
        ∧ lookup_idx (build_exact_index [(1, ["e4", "e5"]), (2, ["e4", "e5", "Nf3"])] 80).1
            (["e4", "e5", "Nf3", "Nc6"].take 3) = some 2
        ∧ ∀ j, 3 < j → j ≤ min (["e4", "e5", "Nf3", "Nc6"] : List String).length 80 →
            lookup_idx (build_exact_index [(1, ["e4", "e5"]), (2, ["e4", "e5", "Nf3"])] 80).1
              (["e4", "e5", "Nf3", "Nc6"].take j) = none) :=
  ⟨by decide,
   (C5_opening_longest_match.1 [(1, ["e4", "e5"]), (2, ["e4", "e5", "Nf3"])]
      ["e4", "e5", "Nf3", "Nc6"]).2.1 2 3 (by decide)⟩

end ChessLense
